import Mathlib

/-!
Verification of the scan job orchestration subsystem of python-htb.

The definitions below are a shallow embedding of `htb/__main__.py`:

* `jobs_kill` embeds `HackTheBox._jobs_kill` (jobs kill / cancel by index);
* `jobs_list` embeds `HackTheBox._jobs_list` (reconciliation plus display rows);
* `selectScanners1`, `selectServices`, `selectScanners2` and `machine_scan`
  embed the selection pipeline of `HackTheBox._machine_scan`;
* `monStep` / `monRun` embed `HackTheBox.monitor_scan` together with the
  foreground / background handoff around one job, as a step relation over
  the interleavings of the executor thread, the monitor and the operator
  control signals;
* `drainStep` / `drainRun` embed the shutdown drain loop at the end of `main`.

The scan executor itself (module `htb.scanner`) is not part of the sources
under verification; where its behaviour matters it is modelled from the
specification, and every such definition carries a doc comment saying so.
-/

namespace Htb

/-- Service record as displayed and matched by the orchestration code:
a `(port, protocol, name)` tuple discovered on a target. -/
structure Service where
  port : Nat
  protocol : String
  name : String
deriving DecidableEq, Repr

/-! ### Job table entries and `jobs kill`

`KJob` carries the `Tracker` fields read or written by `HackTheBox._jobs_kill`:
the display fields, the `thread` execution handle (`true` = handle still live,
i.e. the Python `thread is not None`) and the cooperative `stop` flag. -/

structure KJob where
  machine : String
  service : Service
  scanner : String
  status : String
  thread : Bool
  stop : Bool
deriving DecidableEq, Repr

/-- Result reported to the operator by `jobs kill`. -/
inductive KillResult where
  | noSuchJob
  | alreadyCompleted
  | killed
deriving DecidableEq, Repr

/-- Embedding of `HackTheBox._jobs_kill` (lines 209-224): reject an index that
is negative or not below the table length, warn when the handle is already
cleared, otherwise set the `stop` flag of that job. The index is an `Int`
because the argument parser produces an arbitrary integer. -/
def jobs_kill (jobs : List KJob) (job_id : Int) : KillResult × List KJob :=
  if job_id < 0 ∨ (jobs.length : Int) ≤ job_id then
    (KillResult.noSuchJob, jobs)
  else
    match jobs.get? job_id.toNat with
    | some job =>
      if job.thread then
        (KillResult.killed, jobs.set job_id.toNat { job with stop := true })
      else
        (KillResult.alreadyCompleted, jobs)
    | none => (KillResult.noSuchJob, jobs)

theorem get?_set_ne {α : Type} (l : List α) (a : α) :
    ∀ i k, i ≠ k → (l.set i a).get? k = l.get? k := by
  induction l with
  | nil => intro i k _; simp
  | cons x xs ih =>
    intro i k hik
    cases i with
    | zero =>
      cases k with
      | zero => exact absurd rfl hik
      | succ k => simp
    | succ i =>
      cases k with
      | zero => simp
      | succ k => simpa using ih i k (by omega)

theorem get?_set_self {α : Type} (l : List α) (a : α) :
    ∀ i, i < l.length → (l.set i a).get? i = some a := by
  induction l with
  | nil => intro i h; simp at h
  | cons x xs ih =>
    intro i h
    cases i with
    | zero => simp
    | succ i => simpa using ih i (by simpa using h)

/-- C5: cancel (`jobs kill`) with an out-of-range index fails with the
no-such-job report and changes no state; with an in-range index whose
execution handle is already cleared it fails with the already-completed
report and changes no state; otherwise it sets exactly the stop flag of that job,
returning at once, and leaves every other field of every job unchanged. -/
theorem jobs_kill_spec (jobs : List KJob) (i : Int) :
    ((i < 0 ∨ (jobs.length : Int) ≤ i) → jobs_kill jobs i = (KillResult.noSuchJob, jobs)) ∧
    (∀ job : KJob, jobs.get? i.toNat = some job → ¬ (i < 0 ∨ (jobs.length : Int) ≤ i) →
      (job.thread = false → jobs_kill jobs i = (KillResult.alreadyCompleted, jobs)) ∧
      (job.thread = true →
        jobs_kill jobs i = (KillResult.killed, jobs.set i.toNat { job with stop := true }) ∧
        (∀ k, k ≠ i.toNat →
          (jobs.set i.toNat { job with stop := true }).get? k = jobs.get? k) ∧
        (jobs.set i.toNat { job with stop := true }).get? i.toNat
          = some { job with stop := true } ∧
        ({ job with stop := true }).machine = job.machine ∧
        ({ job with stop := true }).service = job.service ∧
        ({ job with stop := true }).scanner = job.scanner ∧
        ({ job with stop := true }).status = job.status ∧
        ({ job with stop := true }).thread = job.thread)) := by
  constructor
  · intro h
    simp [jobs_kill, if_pos h]
  · intro job hget hrange
    have hlen : i.toNat < jobs.length := by
      by_contra hlt
      have hnone : jobs.get? i.toNat = none := List.get?_eq_none.mpr (by omega)
      rw [hnone] at hget
      cases hget
    have hget' : jobs[i.toNat]? = some job := by
      rw [← List.get?_eq_getElem?]; exact hget
    constructor
    · intro hthread
      simp [jobs_kill, if_neg hrange, hget', hthread]
    · intro hthread
      refine ⟨by simp [jobs_kill, if_neg hrange, hget', hthread], ?_, ?_, rfl, rfl, rfl, rfl, rfl⟩
      · intro k hk
        exact get?_set_ne jobs _ i.toNat k (fun h => hk h.symm)
      · exact get?_set_self jobs _ i.toNat hlen

/-- Witness for `jobs_kill_spec` at a concrete one-job table. -/
theorem jobs_kill_spec_witness :
    ((2 : Int) < 0 ∨ (([(⟨"m", ⟨80, "tcp", "http"⟩, "nikto", "running", true, false⟩ : KJob)].length : Int) ≤ 2)) ∧
    jobs_kill [(⟨"m", ⟨80, "tcp", "http"⟩, "nikto", "running", true, false⟩ : KJob)] 2
      = (KillResult.noSuchJob, [(⟨"m", ⟨80, "tcp", "http"⟩, "nikto", "running", true, false⟩ : KJob)]) ∧
    jobs_kill [(⟨"m", ⟨80, "tcp", "http"⟩, "nikto", "running", true, false⟩ : KJob)] 0
      = (KillResult.killed, [(⟨"m", ⟨80, "tcp", "http"⟩, "nikto", "running", true, true⟩ : KJob)]) := by
  refine ⟨by decide, ?_, ?_⟩
  · exact (jobs_kill_spec [(⟨"m", ⟨80, "tcp", "http"⟩, "nikto", "running", true, false⟩ : KJob)] 2).1
      (by decide)
  · have h := ((jobs_kill_spec [(⟨"m", ⟨80, "tcp", "http"⟩, "nikto", "running", true, false⟩ : KJob)] 0).2
      ⟨"m", ⟨80, "tcp", "http"⟩, "nikto", "running", true, false⟩ (by decide) (by decide)).2 rfl
    exact h.1

/-- C10: the cancel operation is total over all integer indices: whenever the
index is not within `[0, length)` the table is left untouched and the
no-such-job report is produced, and a negative index yields exactly the same
result as a too-large one (it is never interpreted as indexing from the end
of the table). -/
theorem jobs_kill_total_indexing (jobs : List KJob) (i : Int) :
    (¬ (0 ≤ i ∧ i < (jobs.length : Int)) → jobs_kill jobs i = (KillResult.noSuchJob, jobs)) ∧
    (i < 0 → jobs_kill jobs i = jobs_kill jobs (jobs.length : Int)) := by
  constructor
  · intro h
    have : i < 0 ∨ (jobs.length : Int) ≤ i := by omega
    simp [jobs_kill, if_pos this]
  · intro h
    have h1 : i < 0 ∨ (jobs.length : Int) ≤ i := Or.inl h
    have h2 : (jobs.length : Int) < 0 ∨ (jobs.length : Int) ≤ (jobs.length : Int) :=
      Or.inr le_rfl
    simp [jobs_kill, if_pos h1, if_pos h2]

/-- Witness for `jobs_kill_total_indexing`: index `-1` on a nonempty table
whose last job is live and killable is rejected, not resolved to the last
entry. -/
theorem jobs_kill_total_indexing_witness :
    ¬ ((0 : Int) ≤ -1 ∧ (-1 : Int) < (([(⟨"m", ⟨80, "tcp", "http"⟩, "nikto", "running", true, false⟩ : KJob)].length : Int))) ∧
    jobs_kill [(⟨"m", ⟨80, "tcp", "http"⟩, "nikto", "running", true, false⟩ : KJob)] (-1)
      = (KillResult.noSuchJob, [(⟨"m", ⟨80, "tcp", "http"⟩, "nikto", "running", true, false⟩ : KJob)]) :=
  ⟨by decide,
   (jobs_kill_total_indexing [(⟨"m", ⟨80, "tcp", "http"⟩, "nikto", "running", true, false⟩ : KJob)] (-1)).1
     (by decide)⟩

/-! ### `jobs list` reconciliation (C6, C7)

`LJob` carries the `Tracker` fields read or written by `HackTheBox._jobs_list`.
The shared completion channel `job_events` of the command object is embedded as
a list of job indices, in arrival order. -/

structure LJob where
  machine : String
  service : Service
  scanner : String
  status : String
  thread : Bool
deriving DecidableEq, Repr

/-- Display row produced for one job by `_jobs_list`: the index, the dim
styling applied when the execution handle is cleared, and the four data
columns. -/
structure Row where
  ident : Nat
  dim : Bool
  host : String
  service : String
  scanner : String
  status : String
deriving DecidableEq, Repr

/-- Service column text, `"{port}/{protocol} ({name})"` in the source. -/
def serviceStr (s : Service) : String :=
  toString s.port ++ "/" ++ s.protocol ++ " (" ++ s.name ++ ")"

/-- Row built for job `p.2` at index `p.1`, as in the table loop of
`_jobs_list` (lines 195-205). -/
def jobRow (p : Nat × LJob) : Row :=
  { ident := p.1
    dim := !p.2.thread
    host := p.2.machine
    service := serviceStr p.2.service
    scanner := p.2.scanner
    status := p.2.status }

def jobRows (jobs : List LJob) : List Row :=
  jobs.enum.map jobRow

/-- Single iteration of the drain loop of `_jobs_list`: join the signalled
tracker thread and clear its execution handle. -/
def clearOne (jobs : List LJob) (i : Nat) : List LJob :=
  match jobs.get? i with
  | some j => jobs.set i { j with thread := false }
  | none => jobs

/-- Drain loop of `_jobs_list` (lines 185-192): for every tracker pulled off
the completion channel, join its thread and clear the execution handle. The
commented-out status assignment in the source is not embedded. -/
def clearThreads : List LJob → List Nat → List LJob
  | jobs, [] => jobs
  | jobs, i :: rest => clearThreads (clearOne jobs i) rest

/-- Embedding of `HackTheBox._jobs_list` (lines 181-207): reconcile the queued
completion signals without blocking, then build the display rows from the
reconciled table. Returns the rows, the updated table and the (now empty)
completion channel. -/
def jobs_list (jobs : List LJob) (events : List Nat) : List Row × List LJob × List Nat :=
  let jobs1 := clearThreads jobs events
  (jobRows jobs1, jobs1, [])

/-- Modelled from the spec: the Scan Executor (module `htb.scanner`, not under
the sources being verified) marks its job `completed` when the executor thread
exits, for natural completion, cancellation and tool failure alike (sections
4.2 and 4.3), and then posts the job on its owning channel (section 5). A
post to the shared channel of the Job Table therefore enqueues the job index
with the status of the job already `completed`. -/
def postCompletion (st : List LJob × List Nat) (i : Nat) : List LJob × List Nat :=
  match st.1.get? i with
  | some j => (st.1.set i { j with status := "completed" }, st.2 ++ [i])
  | none => st

/-- Queue sanity produced by `postCompletion`: every queued index points at a
job whose status is already `completed`. -/
def executorPosted (jobs : List LJob) (events : List Nat) : Bool :=
  events.all fun i =>
    match jobs.get? i with
    | some j => j.status == "completed"
    | none => false

theorem executorPosted_postCompletion (st : List LJob × List Nat) (i : Nat)
    (h : executorPosted st.1 st.2 = true) :
    executorPosted (postCompletion st i).1 (postCompletion st i).2 = true := by
  rcases st with ⟨jobs, events⟩
  unfold postCompletion
  cases hget : jobs.get? i with
  | none => simpa using h
  | some j =>
    have hlen : i < jobs.length := by
      by_contra hlt
      rw [List.get?_eq_none.mpr (by omega)] at hget
      cases hget
    simp only [executorPosted, List.all_eq_true] at h ⊢
    intro k hk
    rcases List.mem_append.mp hk with hk | hk
    · have hjk := h k hk
      by_cases hik : i = k
      · subst hik
        rw [get?_set_self jobs _ i hlen]
        simp
      · rw [get?_set_ne jobs _ i k hik]
        exact hjk
    · have hik : k = i := by simpa using hk
      subst hik
      rw [get?_set_self jobs _ k hlen]
      simp

theorem clearOne_get? (jobs : List LJob) (i k : Nat) :
    (clearOne jobs i).get? k =
      if i = k then (jobs.get? k).map (fun j => { j with thread := false })
      else jobs.get? k := by
  cases hget : jobs.get? i with
  | none =>
    have hco : clearOne jobs i = jobs := by
      unfold clearOne; rw [hget]
    rw [hco]
    by_cases hik : i = k
    · subst hik
      rw [if_pos rfl, hget]
      rfl
    · rw [if_neg hik]
  | some j =>
    have hlen : i < jobs.length := by
      by_contra hlt
      rw [List.get?_eq_none.mpr (by omega)] at hget
      cases hget
    have hco : clearOne jobs i = jobs.set i { j with thread := false } := by
      unfold clearOne; rw [hget]
    rw [hco]
    by_cases hik : i = k
    · subst hik
      rw [if_pos rfl, get?_set_self jobs _ i hlen, hget]
      rfl
    · rw [if_neg hik, get?_set_ne jobs _ i k hik]

theorem clearThreads_get? (events : List Nat) :
    ∀ (jobs : List LJob) (k : Nat),
      (clearThreads jobs events).get? k =
        if k ∈ events then (jobs.get? k).map (fun j => { j with thread := false })
        else jobs.get? k := by
  induction events with
  | nil => intro jobs k; simp [clearThreads]
  | cons i rest ih =>
    intro jobs k
    rw [clearThreads, ih, clearOne_get?]
    have hmapmap : ∀ o : Option LJob,
        (o.map (fun j => ({ j with thread := false } : LJob))).map
            (fun j => ({ j with thread := false } : LJob))
          = o.map (fun j => ({ j with thread := false } : LJob)) := by
      intro o; cases o <;> rfl
    by_cases hk : k ∈ rest
    · rw [if_pos hk, if_pos (List.mem_cons.mpr (Or.inr hk))]
      by_cases hik : i = k
      · rw [if_pos hik, hmapmap]
      · rw [if_neg hik]
    · rw [if_neg hk]
      by_cases hik : i = k
      · rw [if_pos hik, if_pos (List.mem_cons.mpr (Or.inl hik.symm))]
      · rw [if_neg hik, if_neg (by simp [hik, hk, List.mem_cons]; omega)]

theorem jobRows_get? (jobs : List LJob) (k : Nat) :
    (jobRows jobs).get? k = (jobs.get? k).map fun j => jobRow (k, j) := by
  unfold jobRows
  rw [List.get?_map, List.get?_enum]
  cases jobs.get? k <;> rfl

/-- C6: the jobs-list operation first drains the completion channel without
blocking (the returned channel is empty), joins the thread of each finished job and
clears its execution handle; given that queued signals come from the executor
(which marks the job completed before posting), every job whose completion
signal was consumed is displayed with status `completed` (and dim styling),
while jobs with no queued signal are untouched. -/
theorem jobs_list_reconciles (jobs : List LJob) (events : List Nat)
    (h : executorPosted jobs events = true) :
    (jobs_list jobs events).2.2 = [] ∧
    (∀ i ∈ events, ∃ j : LJob, jobs.get? i = some j ∧
      (jobs_list jobs events).2.1.get? i = some { j with thread := false } ∧
      (jobs_list jobs events).1.get? i =
        some { ident := i, dim := true, host := j.machine,
               service := serviceStr j.service, scanner := j.scanner,
               status := "completed" } ∧
      j.status = "completed") ∧
    (∀ k, k ∉ events → (jobs_list jobs events).2.1.get? k = jobs.get? k) := by
  refine ⟨rfl, ?_, ?_⟩
  · intro i hi
    have hall := List.all_eq_true.mp h i hi
    cases hget : jobs.get? i with
    | none => rw [hget] at hall; simp at hall
    | some j =>
      rw [hget] at hall
      have hstatus : j.status = "completed" := by simpa using hall
      refine ⟨j, rfl, ?_, ?_, hstatus⟩
      · show (clearThreads jobs events).get? i = _
        rw [clearThreads_get? events jobs i, if_pos hi, hget]
        rfl
      · show (jobRows (clearThreads jobs events)).get? i = _
        rw [jobRows_get?, clearThreads_get? events jobs i, if_pos hi, hget]
        simp [jobRow, hstatus]
  · intro k hk
    show (clearThreads jobs events).get? k = jobs.get? k
    rw [clearThreads_get? events jobs k, if_neg hk]

/-- Witness for `jobs_list_reconciles` at a one-job table with one queued
completion signal. -/
theorem jobs_list_reconciles_witness :
    executorPosted [(⟨"m", ⟨80, "tcp", "http"⟩, "nikto", "completed", true⟩ : LJob)] [0] = true ∧
    (jobs_list [(⟨"m", ⟨80, "tcp", "http"⟩, "nikto", "completed", true⟩ : LJob)] [0]).2.2 = [] ∧
    (∀ i ∈ [0], ∃ j : LJob,
      [(⟨"m", ⟨80, "tcp", "http"⟩, "nikto", "completed", true⟩ : LJob)].get? i = some j ∧
      (jobs_list [(⟨"m", ⟨80, "tcp", "http"⟩, "nikto", "completed", true⟩ : LJob)] [0]).2.1.get? i
        = some { j with thread := false } ∧
      (jobs_list [(⟨"m", ⟨80, "tcp", "http"⟩, "nikto", "completed", true⟩ : LJob)] [0]).1.get? i =
        some { ident := i, dim := true, host := j.machine,
               service := serviceStr j.service, scanner := j.scanner,
               status := "completed" } ∧
      j.status = "completed") := by
  have h := jobs_list_reconciles
    [(⟨"m", ⟨80, "tcp", "http"⟩, "nikto", "completed", true⟩ : LJob)] [0] (by decide)
  exact ⟨by decide, h.1, h.2.1⟩

/-- C7: reconciliation is idempotent: feeding the table and the (empty)
channel returned by one jobs-list call into a second call returns identical
rows, the identical table (no job is re-joined or reclassified) and an empty
channel again. -/
theorem jobs_list_idempotent (jobs : List LJob) (events : List Nat) :
    (jobs_list (jobs_list jobs events).2.1 (jobs_list jobs events).2.2).1
      = (jobs_list jobs events).1 ∧
    (jobs_list (jobs_list jobs events).2.1 (jobs_list jobs events).2.2).2.1
      = (jobs_list jobs events).2.1 ∧
    (jobs_list (jobs_list jobs events).2.1 (jobs_list jobs events).2.2).2.2 = [] := by
  refine ⟨rfl, rfl, rfl⟩

/-! ### Scanner selection in `machine scan` (C8, C9)

`MachineM` carries what `_machine_scan` reads from a machine, `ScannerD` what
it reads from a registry entry. The source field `match` is a Lean keyword and
is embedded as `matchTarget`. -/

structure MachineM where
  name : String
  services : List Service

structure ScannerD where
  name : String
  recommended : Bool
  matchTarget : MachineM → Bool
  match_service : Service → Bool

/-- Arguments of `machine scan` relevant to selection: the `--recommended`
flag, the optional `--scanner` name filter, the optional `--service` filter
(already split into `(port, protocol)`) and the `--background` flag. -/
structure ScanArgs where
  recommended : Bool
  scanner : Option String
  service : Option (Nat × String)
  background : Bool

/-- First selection stage of `_machine_scan` (lines 613-618): the
`recommended` branch keeps recommended scanners matching the machine, the
`scanner` branch keeps scanners with the given name (with no machine-match
check), the default branch keeps scanners matching the machine. -/
def selectScanners1 (avail : List ScannerD) (m : MachineM) (args : ScanArgs) :
    List ScannerD :=
  if args.recommended then
    avail.filter fun s => s.recommended && s.matchTarget m
  else
    match args.scanner with
    | some n => avail.filter fun s => s.name == n
    | none => avail.filter fun s => s.matchTarget m

/-- Service filtering of `_machine_scan` (lines 620-627): an explicit
`--service` narrows to services with that port and protocol, otherwise every
service of the machine is kept. -/
def selectServices (m : MachineM) (args : ScanArgs) : List Service :=
  match args.service with
  | some pp => m.services.filter fun s => s.port == pp.1 && s.protocol == pp.2
  | none => m.services

/-- Second selection stage of `_machine_scan` (lines 634-650): keep scanners
that match at least one of the selected services, re-testing the branch
condition of the first stage. -/
def selectScanners2 (scanners : List ScannerD) (args : ScanArgs)
    (services : List Service) : List ScannerD :=
  if args.recommended then
    scanners.filter fun s => s.recommended && services.any fun svc => s.match_service svc
  else
    match args.scanner with
    | some n =>
      scanners.filter fun s => s.name == n && services.any fun svc => s.match_service svc
    | none => scanners.filter fun s => services.any fun svc => s.match_service svc

/-- Outcome of a `machine scan` request: either one of the two user-error
reports, or the list of `(service, scanner name)` pairs for which a tracker
is created and an executor thread started. -/
inductive ScanOutcome where
  | noServices
  | noScanners
  | launched (pairs : List (Service × String))
deriving DecidableEq, Repr

/-- Jobs created by an outcome: none for the two error reports. -/
def jobsCreated : ScanOutcome → List (Service × String)
  | ScanOutcome.noServices => []
  | ScanOutcome.noScanners => []
  | ScanOutcome.launched pairs => pairs

/-- Embedding of `HackTheBox._machine_scan` (lines 607-674): the two selection
stages, the two empty-result error returns, and the scan loop, which starts
one job per `(service, scanner)` pair with `scanner.match_service service`. -/
def machine_scan (avail : List ScannerD) (m : MachineM) (args : ScanArgs) :
    ScanOutcome :=
  let scanners1 := selectScanners1 avail m args
  let services := selectServices m args
  if services.length = 0 then ScanOutcome.noServices
  else
    let scanners := selectScanners2 scanners1 args services
    if scanners.length = 0 then ScanOutcome.noScanners
    else
      ScanOutcome.launched
        (services.bind fun svc =>
          (scanners.filter fun sc => sc.match_service svc).map fun sc => (svc, sc.name))

/-- Combined selection guard actually enforced by the two stages: in
`recommended` mode a scanner must be recommended and match the machine; in
name-filter mode it must merely carry the requested name; otherwise it must
match the machine. -/
def scanGuard (m : MachineM) (args : ScanArgs) (s : ScannerD) : Bool :=
  if args.recommended then s.recommended && s.matchTarget m
  else
    match args.scanner with
    | some n => s.name == n
    | none => s.matchTarget m

def svcHttp : Service := ⟨80, "tcp", "http"⟩

/-- Scanner registered under the name `s3` that matches no machine but
matches every service. -/
def s3 : ScannerD := ⟨"s3", false, fun _ => false, fun _ => true⟩

def mX : MachineM := ⟨"box", [svcHttp]⟩

def argsByName : ScanArgs := ⟨false, some "s3", none, false⟩

/-- C8 counterexample: with a name filter, `_machine_scan` selects and runs a
scanner whose `match(target)` is false, so selection is not the claimed
intersection with `match(target)`. -/
theorem scanner_name_filter_ignores_target :
    s3.matchTarget mX = false ∧
    machine_scan [s3] mX argsByName = ScanOutcome.launched [(svcHttp, "s3")] := by
  constructor
  · rfl
  · rfl

def recS1 : ScannerD := ⟨"S1", true, fun _ => true, fun _ => true⟩

def recS2 : ScannerD := ⟨"S2", false, fun _ => true, fun _ => true⟩

def argsRecommended : ScanArgs := ⟨true, none, none, false⟩

/-- C8 (amended): the selected scanner set is exactly the registry filtered by
`scanGuard` together with matching at least one selected service; a job is
created for a `(service, scanner)` pair exactly when the service passed the
service filter and the scanner is so selected and matches that service; and
the recommended-only scenario on the two-scanner registry launches only `S1`. -/
theorem scanner_selection_policy (avail : List ScannerD) (m : MachineM)
    (args : ScanArgs) :
    (selectScanners2 (selectScanners1 avail m args) args (selectServices m args)
      = avail.filter fun s =>
          scanGuard m args s
            && (selectServices m args).any fun svc => s.match_service svc) ∧
    (∀ (svc : Service) (sname : String),
      (svc, sname) ∈ jobsCreated (machine_scan avail m args) ↔
        svc ∈ selectServices m args ∧
        ∃ s : ScannerD, s ∈ avail ∧ s.name = sname ∧ scanGuard m args s = true ∧
          ((selectServices m args).any fun x => s.match_service x) = true ∧
          s.match_service svc = true) ∧
    machine_scan [recS1, recS2] mX argsRecommended
      = ScanOutcome.launched [(svcHttp, "S1")] := by
  have hsel : selectScanners2 (selectScanners1 avail m args) args (selectServices m args)
      = avail.filter fun s =>
          scanGuard m args s
            && (selectServices m args).any fun svc => s.match_service svc := by
    by_cases hrec : args.recommended = true
    · simp only [selectScanners1, selectScanners2, scanGuard, hrec, if_true,
        List.filter_filter]
      apply List.filter_congr
      intro s _
      cases s.recommended <;> cases s.matchTarget m <;> simp
    · have hrec' : args.recommended = false := by
        revert hrec; cases args.recommended <;> simp
      cases hsc : args.scanner with
      | none =>
        simp only [selectScanners1, selectScanners2, scanGuard, hrec', hsc,
          Bool.false_eq_true, if_false, List.filter_filter]
        apply List.filter_congr
        intro s _
        exact Bool.and_comm _ _
      | some n =>
        simp only [selectScanners1, selectScanners2, scanGuard, hrec', hsc,
          Bool.false_eq_true, if_false, List.filter_filter]
        apply List.filter_congr
        intro s _
        cases hn : s.name == n <;> simp
  refine ⟨hsel, ?_, by rfl⟩
  intro svc sname
  unfold machine_scan
  by_cases hserv : (selectServices m args).length = 0
  · rw [if_pos hserv]
    have hnil : selectServices m args = [] := List.length_eq_zero.mp hserv
    simp [jobsCreated, hnil]
  · rw [if_neg hserv]
    by_cases hscan :
        (selectScanners2 (selectScanners1 avail m args) args (selectServices m args)).length = 0
    · rw [if_pos hscan]
      have hnil := List.length_eq_zero.mp hscan
      rw [hnil] at hsel
      simp only [jobsCreated, List.not_mem_nil, false_iff, not_and]
      intro hmem
      rintro ⟨s, hs, hname, hguard, hany, hmatch⟩
      have : s ∈ ([] : List ScannerD) := by
        rw [hsel]
        exact List.mem_filter.mpr ⟨hs, by simp [hguard, hany]⟩
      cases this
    · rw [if_neg hscan]
      rw [hsel]
      simp only [jobsCreated, List.mem_bind, List.mem_map, List.mem_filter]
      constructor
      · rintro ⟨x, hx, s, ⟨⟨hs, hcond⟩, hmatch⟩, heq⟩
        simp only [Prod.mk.injEq] at heq
        obtain ⟨rfl, hname⟩ := heq
        simp only [Bool.and_eq_true] at hcond
        exact ⟨hx, s, hs, hname, hcond.1, hcond.2, hmatch⟩
      · rintro ⟨hsvc, s, hs, hname, hguard, hany, hmatch⟩
        exact ⟨svc, hsvc, s, ⟨⟨hs, by simp [hguard, hany]⟩, hmatch⟩, by rw [hname]⟩

/-- Witness for `scanner_selection_policy`: the name-filtered request on the
registry `[s3]` launches exactly the pair certified by the policy theorem. -/
theorem scanner_selection_policy_witness :
    (svcHttp, "s3") ∈ jobsCreated (machine_scan [s3] mX argsByName) ∧
    (svcHttp ∈ selectServices mX argsByName ∧
      ∃ s : ScannerD, s ∈ [s3] ∧ s.name = "s3" ∧ scanGuard mX argsByName s = true ∧
        ((selectServices mX argsByName).any fun x => s.match_service x) = true ∧
        s.match_service svcHttp = true) := by
  have hmem : (svcHttp, "s3") ∈ jobsCreated (machine_scan [s3] mX argsByName) := by
    show (svcHttp, "s3") ∈ [(svcHttp, "s3")]
    exact List.mem_singleton.mpr rfl
  exact ⟨hmem, (scanner_selection_policy [s3] mX argsByName).2.1 svcHttp "s3" |>.mp hmem⟩

/-- C9: when the combined filter leaves no matching service, or no matching
scanner, `_machine_scan` reports the corresponding no-match condition and
creates no job. -/
theorem machine_scan_no_match_no_jobs (avail : List ScannerD) (m : MachineM)
    (args : ScanArgs) :
    ((selectServices m args).length = 0 →
      machine_scan avail m args = ScanOutcome.noServices ∧
      jobsCreated (machine_scan avail m args) = []) ∧
    ((selectServices m args).length ≠ 0 →
      (selectScanners2 (selectScanners1 avail m args) args (selectServices m args)).length = 0 →
      machine_scan avail m args = ScanOutcome.noScanners ∧
      jobsCreated (machine_scan avail m args) = []) := by
  constructor
  · intro h
    have : machine_scan avail m args = ScanOutcome.noServices := by
      unfold machine_scan
      rw [if_pos h]
    exact ⟨this, by rw [this]; rfl⟩
  · intro h1 h2
    have : machine_scan avail m args = ScanOutcome.noScanners := by
      unfold machine_scan
      rw [if_neg h1, if_pos h2]
    exact ⟨this, by rw [this]; rfl⟩

def mEmpty : MachineM := ⟨"void", []⟩

/-- Witness for `machine_scan_no_match_no_jobs`: a machine with no services
reports the no-services error, and a nonempty service list with an empty
registry reports the no-scanners error; neither creates a job. -/
theorem machine_scan_no_match_no_jobs_witness :
    (selectServices mEmpty argsByName).length = 0 ∧
    machine_scan [s3] mEmpty argsByName = ScanOutcome.noServices ∧
    (selectServices mX argsByName).length ≠ 0 ∧
    (selectScanners2 (selectScanners1 [] mX argsByName) argsByName
        (selectServices mX argsByName)).length = 0 ∧
    machine_scan [] mX argsByName = ScanOutcome.noScanners ∧
    jobsCreated (machine_scan [] mX argsByName) = [] := by
  refine ⟨rfl, ?_, by decide, rfl, ?_, ?_⟩
  · exact ((machine_scan_no_match_no_jobs [s3] mEmpty argsByName).1 rfl).1
  · exact ((machine_scan_no_match_no_jobs [] mX argsByName).2 (by decide) rfl).1
  · exact ((machine_scan_no_match_no_jobs [] mX argsByName).2 (by decide) rfl).2

/-! ### Foreground monitor and completion handoff (C1, C2, C3)

The interaction of `HackTheBox.monitor_scan` with one running job is embedded
as a state machine over the interleavings of four external events, each of
which is atomic because the handoff lock serialises it against the executor
signal:

* `finish` — the executor thread finishes: it acquires the handoff lock,
  posts the completion signal on the currently registered channel and
  releases the lock. Modelled from the spec: the executor (module
  `htb.scanner`, not under the sources being verified) marks the job
  `completed` when it exits (sections 4.2 and 4.3) and performs the handoff
  of section 5 exactly once. The source registers the consumer channel under
  the attribute name `job_events` in the watch path and `events` in the
  detach and background paths; both are embedded as the single owning
  channel of the spec.
* `wake` — the blocking `tracker.job_events.get()` of `monitor_scan` returns:
  only possible while the monitor is still watching and its private queue is
  nonempty; the monitor consumes the signal and returns.
* `detach` — the SIGTSTP handler raises `GoToSleep` and the handler block of
  `monitor_scan` (lines 708-715) runs under the lock: mark the job silent,
  re-register the shared channel, append the job to the job table, return.
* `intr` — `KeyboardInterrupt` during the get (lines 700-704): warn, set the
  stop flag, and fall out of the handler, returning from `monitor_scan`.
* `drain` — some later `jobs list` or shutdown drain consumes one signal
  from the shared channel.

`fgQ` and `sharedQ` count the signals sitting in the monitor private queue
and in the shared `job_events` queue; `delivered` counts the signals that
were actually consumed by a registered consumer; `table` counts how many
times the job was appended to the job table. -/

inductive Chan where
  | fg
  | shared
deriving DecidableEq, Repr

inductive MonOutcome where
  | completed
  | detached
  | interrupted
deriving DecidableEq, Repr

structure MonSt where
  status : String
  stop : Bool
  silent : Bool
  owning : Chan
  fgQ : Nat
  sharedQ : Nat
  table : Nat
  ret : Option MonOutcome
  delivered : Nat
  sent : Bool
  log : List String
deriving DecidableEq, Repr

/-- State right after the entry of `monitor_scan` (lines 680-682): the private
queue is registered as the owning channel and the handoff lock has been
released; the job is running, not silent, not stopped, nothing sent yet. -/
def monInit : MonSt :=
  { status := "running", stop := false, silent := false, owning := Chan.fg
    fgQ := 0, sharedQ := 0, table := 0, ret := none, delivered := 0
    sent := false, log := [] }

inductive MonEv where
  | finish
  | wake
  | detach
  | intr
  | drain
deriving DecidableEq, Repr

def monStep (s : MonSt) : MonEv → MonSt
  | MonEv.finish =>
    if s.sent then s
    else
      match s.owning with
      | Chan.fg => { s with status := "completed", sent := true, fgQ := s.fgQ + 1 }
      | Chan.shared => { s with status := "completed", sent := true, sharedQ := s.sharedQ + 1 }
  | MonEv.wake =>
    if s.ret = none then
      if 0 < s.fgQ then
        { s with
            fgQ := s.fgQ - 1
            delivered := s.delivered + 1
            ret := some MonOutcome.completed }
      else s
    else s
  | MonEv.detach =>
    if s.ret = none then
      { s with
          silent := true
          owning := Chan.shared
          table := s.table + 1
          ret := some MonOutcome.detached
          log := s.log ++ ["backgrounding"] }
    else s
  | MonEv.intr =>
    if s.ret = none then
      { s with
          stop := true
          ret := some MonOutcome.interrupted
          log := s.log ++ ["cancelling"] }
    else s
  | MonEv.drain =>
    if 0 < s.sharedQ then
      { s with sharedQ := s.sharedQ - 1, delivered := s.delivered + 1 }
    else s

def monRun (s : MonSt) : List MonEv → MonSt
  | [] => s
  | e :: evs => monRun (monStep s e) evs

theorem monRun_append (s : MonSt) (evs1 evs2 : List MonEv) :
    monRun s (evs1 ++ evs2) = monRun (monRun s evs1) evs2 := by
  induction evs1 generalizing s with
  | nil => rfl
  | cons e rest ih => simp [monRun, ih]

theorem monRun_inv (P : MonSt → Prop) (hstep : ∀ s e, P s → P (monStep s e)) :
    ∀ (evs : List MonEv) (s : MonSt), P s → P (monRun s evs) := by
  intro evs
  induction evs with
  | nil => intro s hs; exact hs
  | cons e rest ih => intro s hs; exact ih (monStep s e) (hstep s e hs)

theorem monStep_sent_mono (s : MonSt) (e : MonEv) (h : s.sent = true) :
    (monStep s e).sent = true := by
  cases e <;> simp only [monStep]
  · rw [if_pos h]; exact h
  · by_cases hret : s.ret = none
    · rw [if_pos hret]
      by_cases hq : 0 < s.fgQ
      · rw [if_pos hq]; exact h
      · rw [if_neg hq]; exact h
    · rw [if_neg hret]; exact h
  · by_cases hret : s.ret = none
    · rw [if_pos hret]; exact h
    · rw [if_neg hret]; exact h
  · by_cases hret : s.ret = none
    · rw [if_pos hret]; exact h
    · rw [if_neg hret]; exact h
  · by_cases hq : 0 < s.sharedQ
    · rw [if_pos hq]; exact h
    · rw [if_neg hq]; exact h

theorem monRun_sent_of_mem (evs : List MonEv) :
    ∀ s : MonSt, MonEv.finish ∈ evs ∨ s.sent = true → (monRun s evs).sent = true := by
  induction evs with
  | nil =>
    intro s h
    rcases h with h | h
    · cases h
    · exact h
  | cons e rest ih =>
    intro s h
    show (monRun (monStep s e) rest).sent = true
    rcases h with h | h
    · rcases List.mem_cons.mp h with h | h
      · subst h
        apply ih
        right
        simp only [monStep]
        by_cases hsent : s.sent = true
        · rw [if_pos hsent]; exact hsent
        · rw [if_neg hsent]
          cases s.owning <;> rfl
      · exact ih _ (Or.inl h)
    · exact ih _ (Or.inr (monStep_sent_mono s e h))

/-- Invariant tying the status to the sent flag, and the table count to the
monitor return state. -/
def MonInv (s : MonSt) : Prop :=
  (s.sent = true → s.status = "completed") ∧ (s.ret = none → s.table = 0)

theorem monInv_init : MonInv monInit :=
  ⟨fun h => absurd h (by decide), fun _ => rfl⟩

theorem monInv_step (s : MonSt) (e : MonEv) (h : MonInv s) : MonInv (monStep s e) := by
  obtain ⟨h1, h2⟩ := h
  cases e <;> simp only [monStep]
  · by_cases hsent : s.sent = true
    · rw [if_pos hsent]; exact ⟨h1, h2⟩
    · rw [if_neg hsent]
      cases s.owning
      · exact ⟨fun _ => rfl, fun hr => h2 hr⟩
      · exact ⟨fun _ => rfl, fun hr => h2 hr⟩
  · by_cases hret : s.ret = none
    · rw [if_pos hret]
      by_cases hq : 0 < s.fgQ
      · rw [if_pos hq]
        exact ⟨h1, by intro hr; cases hr⟩
      · rw [if_neg hq]; exact ⟨h1, h2⟩
    · rw [if_neg hret]; exact ⟨h1, h2⟩
  · by_cases hret : s.ret = none
    · rw [if_pos hret]
      exact ⟨h1, by intro hr; cases hr⟩
    · rw [if_neg hret]; exact ⟨h1, h2⟩
  · by_cases hret : s.ret = none
    · rw [if_pos hret]
      exact ⟨h1, by intro hr; cases hr⟩
    · rw [if_neg hret]; exact ⟨h1, h2⟩
  · by_cases hq : 0 < s.sharedQ
    · rw [if_pos hq]; exact ⟨h1, h2⟩
    · rw [if_neg hq]; exact ⟨h1, h2⟩

/-- Once the monitor has returned, later events change neither the return
value nor the table count. -/
theorem monStep_after_ret (s : MonSt) (e : MonEv) (h : s.ret ≠ none) :
    (monStep s e).ret = s.ret ∧ (monStep s e).table = s.table := by
  cases e <;> simp only [monStep]
  · by_cases hsent : s.sent = true
    · rw [if_pos hsent]; exact ⟨rfl, rfl⟩
    · rw [if_neg hsent]
      cases s.owning <;> exact ⟨rfl, rfl⟩
  · rw [if_neg h]; exact ⟨rfl, rfl⟩
  · rw [if_neg h]; exact ⟨rfl, rfl⟩
  · rw [if_neg h]; exact ⟨rfl, rfl⟩
  · by_cases hq : 0 < s.sharedQ
    · rw [if_pos hq]; exact ⟨rfl, rfl⟩
    · rw [if_neg hq]; exact ⟨rfl, rfl⟩

theorem monRun_after_ret (evs : List MonEv) :
    ∀ s : MonSt, s.ret ≠ none →
      (monRun s evs).ret = s.ret ∧ (monRun s evs).table = s.table := by
  induction evs with
  | nil => intro s _; exact ⟨rfl, rfl⟩
  | cons e rest ih =>
    intro s h
    have hstep := monStep_after_ret s e h
    have hrest := ih (monStep s e) (by rw [hstep.1]; exact h)
    constructor
    · show (monRun (monStep s e) rest).ret = s.ret
      rw [hrest.1, hstep.1]
    · show (monRun (monStep s e) rest).table = s.table
      rw [hrest.2, hstep.2]

/-- State reached when the executor signals while the monitor still watches
in the foreground and the operator then detaches before the monitor wakes. -/
def c1State : MonSt := monRun monInit [MonEv.finish, MonEv.detach]

/-- Delivery is dead in `c1State` and stays dead: the returned monitor never
reads its private queue again and the shared queue is empty. -/
def Stuck (s : MonSt) : Prop :=
  s.sent = true ∧ s.ret = some MonOutcome.detached ∧ s.sharedQ = 0 ∧ s.delivered = 0

theorem stuck_step (s : MonSt) (e : MonEv) (h : Stuck s) : Stuck (monStep s e) := by
  obtain ⟨h1, h2, h3, h4⟩ := h
  have hret : s.ret ≠ none := by rw [h2]; intro hc; cases hc
  cases e <;> simp only [monStep]
  · rw [if_pos h1]; exact ⟨h1, h2, h3, h4⟩
  · rw [if_neg hret]; exact ⟨h1, h2, h3, h4⟩
  · rw [if_neg hret]; exact ⟨h1, h2, h3, h4⟩
  · rw [if_neg hret]; exact ⟨h1, h2, h3, h4⟩
  · rw [if_neg (by rw [h3]; exact lt_irrefl 0)]; exact ⟨h1, h2, h3, h4⟩

/-- C1 (refuted; the race flagged as an open question in the spec, section 9):
if the executor posts its completion signal to the registered private channel
and the operator detaches before the monitor wakes, the signal is stranded in
the abandoned private queue: the monitor returns `Detached`, the job sits in
the job table, and no consumer ever receives the completion, under every
continuation of the interleaving. -/
theorem monitor_completion_dropped_on_detach :
    c1State.sent = true ∧ c1State.ret = some MonOutcome.detached ∧
    c1State.table = 1 ∧ c1State.fgQ = 1 ∧ c1State.sharedQ = 0 ∧
    c1State.delivered = 0 ∧
    ∀ evs : List MonEv, (monRun c1State evs).delivered = 0 := by
  refine ⟨rfl, rfl, rfl, rfl, rfl, rfl, ?_⟩
  intro evs
  have hstuck : Stuck c1State := ⟨rfl, rfl, rfl, rfl⟩
  exact (monRun_inv Stuck stuck_step evs c1State hstuck).2.2.2

/-- C2: whenever the detach control signal arrives while the job is still
being watched, the handler marks the job silent, re-registers the shared
channel as the owning channel, appends the job to the job table exactly once
and returns `Detached` at once; under any continuation in which the executor
finishes (before or after the detach), the job is still in the table exactly
once and its status has reached `completed`. -/
theorem monitor_detach_preserves_job (evs1 evs2 : List MonEv)
    (hwatch : (monRun monInit evs1).ret = none)
    (hfin : MonEv.finish ∈ evs1 ∨ MonEv.finish ∈ evs2) :
    (monStep (monRun monInit evs1) MonEv.detach).silent = true ∧
    (monStep (monRun monInit evs1) MonEv.detach).owning = Chan.shared ∧
    (monStep (monRun monInit evs1) MonEv.detach).ret = some MonOutcome.detached ∧
    (monStep (monRun monInit evs1) MonEv.detach).table = 1 ∧
    (monRun monInit (evs1 ++ MonEv.detach :: evs2)).table = 1 ∧
    (monRun monInit (evs1 ++ MonEv.detach :: evs2)).ret = some MonOutcome.detached ∧
    (monRun monInit (evs1 ++ MonEv.detach :: evs2)).status = "completed" := by
  have hinv : MonInv (monRun monInit evs1) :=
    monRun_inv MonInv monInv_step evs1 monInit monInv_init
  have htable0 : (monRun monInit evs1).table = 0 := hinv.2 hwatch
  have hd : monStep (monRun monInit evs1) MonEv.detach =
      { monRun monInit evs1 with
          silent := true
          owning := Chan.shared
          table := (monRun monInit evs1).table + 1
          ret := some MonOutcome.detached
          log := (monRun monInit evs1).log ++ ["backgrounding"] } := by
    simp only [monStep]
    rw [if_pos hwatch]
  have hfull : monRun monInit (evs1 ++ MonEv.detach :: evs2)
      = monRun (monStep (monRun monInit evs1) MonEv.detach) evs2 := by
    rw [monRun_append]
    rfl
  have hretd : (monStep (monRun monInit evs1) MonEv.detach).ret
      = some MonOutcome.detached := by rw [hd]
  have hafter := monRun_after_ret evs2 (monStep (monRun monInit evs1) MonEv.detach)
    (by rw [hretd]; intro hc; cases hc)
  refine ⟨by rw [hd], by rw [hd], hretd, ?_, ?_, ?_, ?_⟩
  · rw [hd]
    simp [htable0]
  · rw [hfull, hafter.2, hd]
    simp [htable0]
  · rw [hfull, hafter.1, hretd]
  · have hsentfull : (monRun monInit (evs1 ++ MonEv.detach :: evs2)).sent = true := by
      apply monRun_sent_of_mem
      left
      rcases hfin with h | h
      · exact List.mem_append.mpr (Or.inl h)
      · exact List.mem_append.mpr (Or.inr (List.mem_cons.mpr (Or.inr h)))
    have hinvfull : MonInv (monRun monInit (evs1 ++ MonEv.detach :: evs2)) :=
      monRun_inv MonInv monInv_step _ monInit monInv_init
    exact hinvfull.1 hsentfull

/-- Witness for `monitor_detach_preserves_job`: detach first, then the
executor finishes into the shared channel. -/
theorem monitor_detach_preserves_job_witness :
    (monRun monInit []).ret = none ∧
    (monStep (monRun monInit []) MonEv.detach).silent = true ∧
    (monRun monInit ([] ++ MonEv.detach :: [MonEv.finish])).table = 1 ∧
    (monRun monInit ([] ++ MonEv.detach :: [MonEv.finish])).status = "completed" := by
  have h := monitor_detach_preserves_job [] [MonEv.finish] rfl
    (Or.inr (List.mem_singleton.mpr rfl))
  exact ⟨rfl, h.1, h.2.2.2.2.1, h.2.2.2.2.2.2⟩

/-- State reached when the operator interrupt arrives while the monitor is
blocked and no completion signal has been sent yet. -/
def c3State : MonSt := monRun monInit [MonEv.intr]

/-- C3 counterexample: on an interrupt the source warns, sets the stop flag
and returns from `monitor_scan` immediately: here the monitor has returned
although the executor has not even sent the completion signal, so the monitor
does not keep blocking until the signal arrives. -/
theorem monitor_interrupt_no_wait :
    c3State.stop = true ∧ c3State.log = ["cancelling"] ∧
    c3State.ret = some MonOutcome.interrupted ∧
    c3State.sent = false ∧ c3State.fgQ = 0 ∧ c3State.delivered = 0 := by
  refine ⟨rfl, rfl, rfl, rfl, rfl, rfl⟩

/-- C3 (amended): when an interrupt arrives while a job is being watched, the
monitor sets the stop flag of the job, reports the cancellation warning, and
returns immediately without waiting for the completion signal (it does not
consume any completion, so the delivered count is unchanged). -/
theorem monitor_interrupt_sets_stop (evs : List MonEv)
    (hwatch : (monRun monInit evs).ret = none) :
    (monStep (monRun monInit evs) MonEv.intr).stop = true ∧
    (monStep (monRun monInit evs) MonEv.intr).ret = some MonOutcome.interrupted ∧
    (monStep (monRun monInit evs) MonEv.intr).log
      = (monRun monInit evs).log ++ ["cancelling"] ∧
    (monStep (monRun monInit evs) MonEv.intr).delivered
      = (monRun monInit evs).delivered := by
  have hstep : monStep (monRun monInit evs) MonEv.intr =
      { monRun monInit evs with
          stop := true
          ret := some MonOutcome.interrupted
          log := (monRun monInit evs).log ++ ["cancelling"] } := by
    simp only [monStep]
    rw [if_pos hwatch]
  exact ⟨by rw [hstep], by rw [hstep], by rw [hstep], by rw [hstep]⟩

/-- Witness for `monitor_interrupt_sets_stop` on the empty prefix. -/
theorem monitor_interrupt_sets_stop_witness :
    (monRun monInit []).ret = none ∧
    (monStep (monRun monInit []) MonEv.intr).stop = true ∧
    (monStep (monRun monInit []) MonEv.intr).ret = some MonOutcome.interrupted := by
  have h := monitor_interrupt_sets_stop [] rfl
  exact ⟨rfl, h.1, h.2.1⟩

/-! ### Shutdown drain (C4)

The drain code at the end of `main` (lines 1358-1378) is embedded as a state
machine processing a script of events at its blocking suspension points: a
`sig i` event is a completion signal for job `i` arriving on the shared
channel (upon which the drain marks the job completed and clears its handle),
an `intr` event is an operator interrupt raised while blocked. `phase 0` is
the normal wait, `phase 1` the wait after the first interrupt (all stop flags
set), `phase 2` the abandoned state after the second interrupt (live handles
daemonised, no further waiting). The loop exits, ignoring all later events,
as soon as no job has a live handle or phase 2 is reached. -/

structure DJob where
  status : String
  thread : Bool
  stop : Bool
  daemon : Bool
deriving DecidableEq, Repr

def anyLive (jobs : List DJob) : Bool :=
  jobs.any fun j => j.thread

inductive DrainEv where
  | sig (i : Nat)
  | intr
deriving DecidableEq, Repr

structure DrainSt where
  jobs : List DJob
  phase : Nat
deriving DecidableEq, Repr

/-- Loop guard of the drain: the source loops
`while len([j for j in cmd.jobs if j.thread is not None])`, and after the
second interrupt it stops waiting entirely. -/
def drainDone (s : DrainSt) : Bool :=
  !(anyLive s.jobs) || (s.phase == 2)

/-- Body run for one received completion signal (lines 1362-1364 and
1371-1374): mark the signalled tracker completed and clear its handle. -/
def setCompleted (jobs : List DJob) (i : Nat) : List DJob :=
  match jobs.get? i with
  | some j => jobs.set i { j with status := "completed", thread := false }
  | none => jobs

def drainStep (s : DrainSt) : DrainEv → DrainSt
  | DrainEv.sig i =>
    if drainDone s then s
    else { s with jobs := setCompleted s.jobs i }
  | DrainEv.intr =>
    if drainDone s then s
    else if s.phase = 0 then
      { jobs := s.jobs.map fun j => { j with stop := true }, phase := 1 }
    else
      { jobs := s.jobs.map fun j => if j.thread then { j with daemon := true } else j
        phase := 2 }

def drainRun (s : DrainSt) : List DrainEv → DrainSt
  | [] => s
  | e :: evs => drainRun (drainStep s e) evs

def jobLive (jobs : List DJob) (i : Nat) : Bool :=
  match jobs.get? i with
  | some j => j.thread
  | none => false

/-- Scripts that contain only completion signals. -/
def sigOnly (evs : List DrainEv) : Prop :=
  ∀ e ∈ evs, e ≠ DrainEv.intr

theorem drainRun_done (evs : List DrainEv) :
    ∀ s : DrainSt, drainDone s = true → drainRun s evs = s := by
  induction evs with
  | nil => intro s _; rfl
  | cons e rest ih =>
    intro s h
    have hstep : drainStep s e = s := by
      cases e <;> simp only [drainStep] <;> rw [if_pos h]
    show drainRun (drainStep s e) rest = s
    rw [hstep]
    exact ih s h

theorem drainRun_phase_sigOnly (evs : List DrainEv) :
    ∀ s : DrainSt, sigOnly evs → (drainRun s evs).phase = s.phase := by
  induction evs with
  | nil => intro s _; rfl
  | cons e rest ih =>
    intro s hso
    have he : e ≠ DrainEv.intr := hso e (List.mem_cons.mpr (Or.inl rfl))
    have hrest : sigOnly rest := fun x hx => hso x (List.mem_cons.mpr (Or.inr hx))
    cases e with
    | intr => exact absurd rfl he
    | sig i =>
      show (drainRun (drainStep s (DrainEv.sig i)) rest).phase = s.phase
      rw [ih _ hrest]
      simp only [drainStep]
      by_cases hdone : drainDone s = true
      · rw [if_pos hdone]
      · rw [if_neg hdone]

theorem setCompleted_get? (jobs : List DJob) (i k : Nat) :
    (setCompleted jobs i).get? k =
      if i = k then
        (jobs.get? k).map fun j => { j with status := "completed", thread := false }
      else jobs.get? k := by
  cases hget : jobs.get? i with
  | none =>
    have hsc : setCompleted jobs i = jobs := by
      unfold setCompleted; rw [hget]
    rw [hsc]
    by_cases hik : i = k
    · subst hik
      rw [if_pos rfl, hget]
      rfl
    · rw [if_neg hik]
  | some j =>
    have hlen : i < jobs.length := by
      by_contra hlt
      rw [List.get?_eq_none.mpr (by omega)] at hget
      cases hget
    have hsc : setCompleted jobs i
        = jobs.set i { j with status := "completed", thread := false } := by
      unfold setCompleted; rw [hget]
    rw [hsc]
    by_cases hik : i = k
    · subst hik
      rw [if_pos rfl, get?_set_self jobs _ i hlen, hget]
      rfl
    · rw [if_neg hik, get?_set_ne jobs _ i k hik]

theorem setCompleted_length (jobs : List DJob) (i : Nat) :
    (setCompleted jobs i).length = jobs.length := by
  cases hget : jobs.get? i with
  | none =>
    have hsc : setCompleted jobs i = jobs := by unfold setCompleted; rw [hget]
    rw [hsc]
  | some j =>
    have hsc : setCompleted jobs i
        = jobs.set i { j with status := "completed", thread := false } := by
      unfold setCompleted; rw [hget]
    rw [hsc, List.length_set]

theorem drainDone_mk (jobs : List DJob) (p : Nat) :
    drainDone ⟨jobs, p⟩ = (!(anyLive jobs) || (p == 2)) := rfl

theorem drainStep_intr_phase0 (s : DrainSt) (hnd : drainDone s = false)
    (hp : s.phase = 0) :
    drainStep s DrainEv.intr = ⟨s.jobs.map fun j => { j with stop := true }, 1⟩ := by
  simp only [drainStep]
  rw [if_neg (by rw [hnd]; exact Bool.false_ne_true), if_pos hp]

theorem drainStep_intr_phase1 (s : DrainSt) (hnd : drainDone s = false)
    (hp : s.phase ≠ 0) :
    drainStep s DrainEv.intr
      = ⟨s.jobs.map fun j => if j.thread then { j with daemon := true } else j, 2⟩ := by
  simp only [drainStep]
  rw [if_neg (by rw [hnd]; exact Bool.false_ne_true), if_neg hp]

theorem drainStep_sig_get? (s : DrainSt) (i : Nat) (j : DJob)
    (hnd : drainDone s = false) (hget : s.jobs.get? i = some j) :
    (drainStep s (DrainEv.sig i)).jobs.get? i
      = some { j with status := "completed", thread := false } := by
  have hstep : drainStep s (DrainEv.sig i) = { s with jobs := setCompleted s.jobs i } := by
    simp only [drainStep]
    rw [if_neg (by rw [hnd]; exact Bool.false_ne_true)]
  rw [hstep]
  show (setCompleted s.jobs i).get? i = _
  rw [setCompleted_get?, if_pos rfl, hget]
  rfl

theorem jobLive_anyLive (jobs : List DJob) (i : Nat) (h : jobLive jobs i = true) :
    anyLive jobs = true := by
  unfold jobLive at h
  cases hget : jobs.get? i with
  | none => rw [hget] at h; cases h
  | some j =>
    rw [hget] at h
    have hmem : j ∈ jobs := List.get?_mem hget
    exact List.any_eq_true.mpr ⟨j, hmem, h⟩

/-- Core induction for the normal drain: processing one completion signal per
live index (any duplicate-free enumeration) marks exactly those jobs
completed with cleared handles, leaves everything else untouched and keeps
the phase. -/
theorem drain_sigs_complete (l : List Nat) :
    ∀ (jobs : List DJob) (p : Nat), p ≠ 2 → l.Nodup →
      (∀ i ∈ l, jobLive jobs i = true) →
      (drainRun ⟨jobs, p⟩ (l.map DrainEv.sig)).phase = p ∧
      (drainRun ⟨jobs, p⟩ (l.map DrainEv.sig)).jobs.length = jobs.length ∧
      (∀ i ∈ l, ∃ j : DJob, jobs.get? i = some j ∧
        (drainRun ⟨jobs, p⟩ (l.map DrainEv.sig)).jobs.get? i
          = some { j with status := "completed", thread := false }) ∧
      (∀ k, k ∉ l →
        (drainRun ⟨jobs, p⟩ (l.map DrainEv.sig)).jobs.get? k = jobs.get? k) := by
  induction l with
  | nil =>
    intro jobs p _ _ _
    exact ⟨rfl, rfl, fun i hi => absurd hi (List.not_mem_nil i), fun k _ => rfl⟩
  | cons i rest ih =>
    intro jobs p hp hnd hlive
    have hlivei : jobLive jobs i = true := hlive i (List.mem_cons.mpr (Or.inl rfl))
    obtain ⟨j, hget, hthr⟩ : ∃ j : DJob, jobs.get? i = some j ∧ j.thread = true := by
      unfold jobLive at hlivei
      cases hget : jobs.get? i with
      | none => rw [hget] at hlivei; cases hlivei
      | some j => rw [hget] at hlivei; exact ⟨j, rfl, hlivei⟩
    have hdone : drainDone ⟨jobs, p⟩ = false := by
      unfold drainDone
      have hany : anyLive jobs = true := jobLive_anyLive jobs i hlivei
      simp [hany]
      omega
    have hstep : drainStep ⟨jobs, p⟩ (DrainEv.sig i) = ⟨setCompleted jobs i, p⟩ := by
      simp only [drainStep]
      rw [if_neg (by rw [hdone]; exact Bool.false_ne_true)]
    have hndrest : rest.Nodup := (List.nodup_cons.mp hnd).2
    have hnotmem : i ∉ rest := (List.nodup_cons.mp hnd).1
    have hliverest : ∀ x ∈ rest, jobLive (setCompleted jobs i) x = true := by
      intro x hx
      have hxi : i ≠ x := fun hc => hnotmem (hc ▸ hx)
      unfold jobLive
      rw [setCompleted_get? jobs i x, if_neg hxi]
      exact hlive x (List.mem_cons.mpr (Or.inr hx))
    have hrest := ih (setCompleted jobs i) p hp hndrest hliverest
    have hshow : drainRun ⟨jobs, p⟩ ((i :: rest).map DrainEv.sig)
        = drainRun ⟨setCompleted jobs i, p⟩ (rest.map DrainEv.sig) := by
      show drainRun (drainStep ⟨jobs, p⟩ (DrainEv.sig i)) (rest.map DrainEv.sig)
        = drainRun ⟨setCompleted jobs i, p⟩ (rest.map DrainEv.sig)
      rw [hstep]
    rw [hshow]
    refine ⟨hrest.1, by rw [hrest.2.1, setCompleted_length], ?_, ?_⟩
    · intro x hx
      rcases List.mem_cons.mp hx with hx | hx
      · subst hx
        refine ⟨j, hget, ?_⟩
        rw [hrest.2.2.2 x hnotmem, setCompleted_get? jobs x x, if_pos rfl, hget]
        rfl
      · obtain ⟨j2, hget2, hres2⟩ := hrest.2.2.1 x hx
        have hxi : i ≠ x := fun hc => hnotmem (hc ▸ hx)
        rw [setCompleted_get? jobs i x, if_neg hxi] at hget2
        exact ⟨j2, hget2, hres2⟩
    · intro k hk
      have hknot : k ∉ rest := fun hc => hk (List.mem_cons.mpr (Or.inr hc))
      have hki : i ≠ k := fun hc => hk (List.mem_cons.mpr (Or.inl hc.symm))
      rw [hrest.2.2.2 k hknot, setCompleted_get? jobs i k, if_neg hki]

/-- C4: the shutdown drain policy of `main`. First conjunct (normal exit):
processing one completion signal per live job joins every live handle and
marks each signalled job completed, leaving completed jobs untouched, after
which the loop guard is satisfied. Second conjunct (first interrupt during
draining): the stop flag of every job is set, the drain is still not done,
and a subsequent genuine completion is still processed. Third conjunct
(second interrupt during draining): every job whose handle is still live is
marked daemonic, the drain is finished and every later event is ignored, so
the process exits without waiting on the tool processes. -/
theorem main_shutdown_drain (jobs : List DJob) :
    (∀ l : List Nat, l.Nodup → (∀ i, i ∈ l ↔ jobLive jobs i = true) →
      (drainRun ⟨jobs, 0⟩ (l.map DrainEv.sig)).phase = 0 ∧
      anyLive (drainRun ⟨jobs, 0⟩ (l.map DrainEv.sig)).jobs = false ∧
      drainDone (drainRun ⟨jobs, 0⟩ (l.map DrainEv.sig)) = true ∧
      (∀ i ∈ l, ∃ j : DJob, jobs.get? i = some j ∧
        (drainRun ⟨jobs, 0⟩ (l.map DrainEv.sig)).jobs.get? i
          = some { j with status := "completed", thread := false }) ∧
      (∀ k, k ∉ l →
        (drainRun ⟨jobs, 0⟩ (l.map DrainEv.sig)).jobs.get? k = jobs.get? k)) ∧
    (∀ evs1 : List DrainEv, sigOnly evs1 →
      drainDone (drainRun ⟨jobs, 0⟩ evs1) = false →
      (drainStep (drainRun ⟨jobs, 0⟩ evs1) DrainEv.intr).phase = 1 ∧
      (∀ j ∈ (drainStep (drainRun ⟨jobs, 0⟩ evs1) DrainEv.intr).jobs, j.stop = true) ∧
      drainDone (drainStep (drainRun ⟨jobs, 0⟩ evs1) DrainEv.intr) = false ∧
      (∀ (hi : Nat) (j : DJob),
        (drainStep (drainRun ⟨jobs, 0⟩ evs1) DrainEv.intr).jobs.get? hi = some j →
        j.thread = true →
        (drainStep (drainStep (drainRun ⟨jobs, 0⟩ evs1) DrainEv.intr)
            (DrainEv.sig hi)).jobs.get? hi
          = some { j with status := "completed", thread := false })) ∧
    (∀ evs1 evs2 : List DrainEv, sigOnly evs1 → sigOnly evs2 →
      drainDone (drainRun ⟨jobs, 0⟩ evs1) = false →
      drainDone (drainRun (drainStep (drainRun ⟨jobs, 0⟩ evs1) DrainEv.intr) evs2)
        = false →
      (drainStep (drainRun (drainStep (drainRun ⟨jobs, 0⟩ evs1) DrainEv.intr) evs2)
          DrainEv.intr).phase = 2 ∧
      (∀ j ∈ (drainStep (drainRun (drainStep (drainRun ⟨jobs, 0⟩ evs1) DrainEv.intr)
            evs2) DrainEv.intr).jobs, j.thread = true → j.daemon = true) ∧
      drainDone (drainStep (drainRun (drainStep (drainRun ⟨jobs, 0⟩ evs1)
          DrainEv.intr) evs2) DrainEv.intr) = true ∧
      (∀ evs3 : List DrainEv,
        drainRun (drainStep (drainRun (drainStep (drainRun ⟨jobs, 0⟩ evs1)
            DrainEv.intr) evs2) DrainEv.intr) evs3
          = drainStep (drainRun (drainStep (drainRun ⟨jobs, 0⟩ evs1)
              DrainEv.intr) evs2) DrainEv.intr)) := by
  refine ⟨?_, ?_, ?_⟩
  · intro l hnd hcover
    have hlive : ∀ i ∈ l, jobLive jobs i = true := fun i hi => (hcover i).mp hi
    have hmain := drain_sigs_complete l jobs 0 (by omega) hnd hlive
    have hanyfalse : anyLive (drainRun ⟨jobs, 0⟩ (l.map DrainEv.sig)).jobs = false := by
      rw [← Bool.not_eq_true]
      intro hany
      obtain ⟨j, hjmem, hjthr⟩ := List.any_eq_true.mp hany
      obtain ⟨k, hk⟩ := List.mem_iff_get?.mp hjmem
      by_cases hkl : k ∈ l
      · obtain ⟨j0, _, hres⟩ := hmain.2.2.1 k hkl
        rw [hres] at hk
        cases hk
        cases hjthr
      · rw [hmain.2.2.2 k hkl] at hk
        have : jobLive jobs k = true := by
          unfold jobLive
          rw [hk]
          exact hjthr
        exact hkl ((hcover k).mpr this)
    refine ⟨hmain.1, hanyfalse, ?_, hmain.2.2.1, hmain.2.2.2⟩
    unfold drainDone
    rw [hanyfalse]
    rfl
  · intro evs1 hso hnd
    have hphase : (drainRun ⟨jobs, 0⟩ evs1).phase = 0 :=
      drainRun_phase_sigOnly evs1 ⟨jobs, 0⟩ hso
    have hstep := drainStep_intr_phase0 (drainRun ⟨jobs, 0⟩ evs1) hnd hphase
    have hanylive : anyLive (drainRun ⟨jobs, 0⟩ evs1).jobs = true := by
      unfold drainDone at hnd
      rcases Bool.or_eq_false_iff.mp hnd with ⟨h1, _⟩
      rw [← Bool.not_eq_false]
      intro hfalse
      rw [hfalse] at h1
      cases h1
    have hanymap : anyLive ((drainRun ⟨jobs, 0⟩ evs1).jobs.map
        fun j => { j with stop := true }) = true := by
      obtain ⟨j, hjmem, hjthr⟩ := List.any_eq_true.mp hanylive
      refine List.any_eq_true.mpr
        ⟨{ j with stop := true }, List.mem_map.mpr ⟨j, hjmem, rfl⟩, hjthr⟩
    have hdone2 : drainDone (drainStep (drainRun ⟨jobs, 0⟩ evs1) DrainEv.intr)
        = false := by
      rw [hstep, drainDone_mk, hanymap]
      rfl
    refine ⟨by rw [hstep], ?_, hdone2, ?_⟩
    · intro j hj
      rw [hstep] at hj
      obtain ⟨j0, _, hj0⟩ := List.mem_map.mp hj
      rw [← hj0]
    · intro hi j hget hthr
      exact drainStep_sig_get? _ hi j hdone2 hget
  · intro evs1 evs2 hso1 hso2 hnd1 hnd2
    have hphase1 : (drainRun ⟨jobs, 0⟩ evs1).phase = 0 :=
      drainRun_phase_sigOnly evs1 ⟨jobs, 0⟩ hso1
    have hstep1 := drainStep_intr_phase0 (drainRun ⟨jobs, 0⟩ evs1) hnd1 hphase1
    have hphase2 : (drainRun (drainStep (drainRun ⟨jobs, 0⟩ evs1) DrainEv.intr)
        evs2).phase = 1 := by
      rw [drainRun_phase_sigOnly evs2 _ hso2, hstep1]
    have hstep2 := drainStep_intr_phase1
      (drainRun (drainStep (drainRun ⟨jobs, 0⟩ evs1) DrainEv.intr) evs2) hnd2
      (by rw [hphase2]; omega)
    have hdone : drainDone (drainStep (drainRun (drainStep (drainRun ⟨jobs, 0⟩ evs1)
        DrainEv.intr) evs2) DrainEv.intr) = true := by
      rw [hstep2, drainDone_mk]
      simp
    refine ⟨by rw [hstep2], ?_, hdone, ?_⟩
    · intro j hj hthr
      rw [hstep2] at hj
      obtain ⟨j0, _, hj0⟩ := List.mem_map.mp hj
      by_cases hthr0 : j0.thread = true
      · rw [if_pos hthr0] at hj0
        rw [← hj0]
      · rw [if_neg hthr0] at hj0
        subst hj0
        exact absurd hthr hthr0
    · intro evs3
      exact drainRun_done evs3 _ hdone

/-- Witness for `main_shutdown_drain` on a one-job table with a live handle:
the normal drain completes the job; a first interrupt during draining sets
the stop flag and keeps draining; a second one daemonises the live handle and
terminates the drain. -/
theorem main_shutdown_drain_witness :
    ([0] : List Nat).Nodup ∧
    (∀ i, i ∈ ([0] : List Nat) ↔ jobLive [(⟨"running", true, false, false⟩ : DJob)] i = true) ∧
    sigOnly ([] : List DrainEv) ∧
    drainDone (drainRun ⟨[(⟨"running", true, false, false⟩ : DJob)], 0⟩ []) = false ∧
    anyLive (drainRun ⟨[(⟨"running", true, false, false⟩ : DJob)], 0⟩
      (([0] : List Nat).map DrainEv.sig)).jobs = false ∧
    (drainStep (drainRun ⟨[(⟨"running", true, false, false⟩ : DJob)], 0⟩ [])
      DrainEv.intr).phase = 1 ∧
    (drainStep (drainRun (drainStep (drainRun ⟨[(⟨"running", true, false, false⟩ : DJob)], 0⟩ [])
        DrainEv.intr) []) DrainEv.intr).phase = 2 := by
  have hcover : ∀ i, i ∈ ([0] : List Nat) ↔
      jobLive [(⟨"running", true, false, false⟩ : DJob)] i = true := by
    intro i
    constructor
    · intro hi
      have : i = 0 := by simpa using hi
      subst this
      rfl
    · intro hi
      cases i with
      | zero => exact List.mem_singleton.mpr rfl
      | succ n =>
        exfalso
        unfold jobLive at hi
        have : [(⟨"running", true, false, false⟩ : DJob)].get? (n + 1) = none := by
          apply List.get?_eq_none.mpr
          simp
        rw [this] at hi
        cases hi
  have h := main_shutdown_drain [(⟨"running", true, false, false⟩ : DJob)]
  refine ⟨by decide, hcover, ?_, by decide, ?_, ?_, ?_⟩
  · intro e he; cases he
  · exact (h.1 [0] (by decide) hcover).2.1
  · exact (h.2.1 [] (fun e he => by cases he) (by decide)).1
  · exact (h.2.2 [] [] (fun e he => by cases he) (fun e he => by cases he)
      (by decide) (by decide)).1

end Htb
